import Mathlib

/-!
Shallow embedding of the tile-cache / projection / animation engine of
`src/Source.cpp` (JMA Nowcast & GSI Map Viewer), together with proofs of the
specification's claims about it.

Modelling conventions:
* tile keys (the derived URL path `std::wstring`s) are modelled as an abstract
  type with decidable value-equality, concretely `ℕ`;
* `std::chrono::steady_clock::time_point` instants are abstract ticks `ℕ`
  (for the cache) resp. `ℚ` seconds (for the animation, which divides by a
  float duration);
* decoded `ID2D1Bitmap*` handles are abstract `ℕ` handles, a failed decode
  being `none` (`LoadPngToD2D` returning `nullptr`);
* the WIC decoder is an oracle `decode : List ℕ → Option ℕ` passed to the
  operations that call it;
* `double` arithmetic of the projection functions is modelled over `ℝ`
  (transcendental functions) resp. `ℚ` (zoom-selection, animation, where the
  code only floors, compares, clamps and takes linear combinations);
* the `unordered_map` cache is an association list with pairwise-distinct
  keys; iteration order is irrelevant to the claims because eviction sorts by
  timestamp (`std::sort` with a strict weak order lets ties land arbitrarily,
  and the spec explicitly allows arbitrary tie-breaks, so a concrete stable
  sort is a faithful refinement).
-/

namespace Ame

/-- `TILE_SIZE` (Source.cpp:48). -/
def TILE_SIZE : ℕ := 256

/-- `MIN_MAP_ZOOM` (Source.cpp:49). -/
def MIN_MAP_ZOOM : ℤ := 2

/-- `MAX_MAP_ZOOM` (Source.cpp:50). -/
def MAX_MAP_ZOOM : ℤ := 18

/-- `MIN_DL_ZOOM` (Source.cpp:51), the JMA overlay's minimum zoom. -/
def MIN_DL_ZOOM : ℤ := 4

/-- `MAX_DL_ZOOM` (Source.cpp:52), the JMA overlay's maximum zoom. -/
def MAX_DL_ZOOM : ℤ := 13

/-- `kCacheLimit` (Source.cpp:74), the tile-cache capacity. -/
def kCacheLimit : ℕ := 256

/-- `kOverlayAlpha = 0.90f` (Source.cpp:71). -/
def kOverlayAlpha : ℚ := 9 / 10

/-- `kAnimDurationSec = 0.65f` (Source.cpp:72). -/
def kAnimDurationSec : ℚ := 13 / 20

/-- Tile keys: the derived path strings, by value equality (Source.cpp:105). -/
abbrev Key := ℕ

/-- The `Img` cache-entry struct (Source.cpp:97-101): raw fetched bytes, the
decoded bitmap handle (`nullptr` = `none`), and the LRU timestamp. -/
structure Img where
  bytes : List ℕ
  bmp : Option ℕ
  lastUsed : ℕ
deriving Repr, DecidableEq

/-- The placeholder entry inserted on a cache miss (Source.cpp:293-295):
no bytes, no bitmap, `lastUsed = now`. -/
def pendingPlaceholder (now : ℕ) : Img :=
  { bytes := [], bmp := none, lastUsed := now }

/-- Observable condition of an entry, after the branch structure of
`GetOrFetchBitmap` (Source.cpp:280-289): a decoded bitmap wins, otherwise
nonempty bytes are awaiting decode, otherwise the entry is bare. -/
inductive EntryState where
  | pending
  | bytesReady
  | decoded
deriving Repr, DecidableEq

/-- Classify an `Img` by the only fields the code ever inspects. -/
def entryState (e : Img) : EntryState :=
  if e.bmp.isSome then .decoded
  else if e.bytes ≠ [] then .bytesReady
  else .pending

/-- The shared mutable state touched under `gCacheMtx` plus the observable
effects on the worker pool and the message queue: `cache` is `gCache`
(Source.cpp:105), `jobs` the FIFO of fetch jobs handed to `gPool->enqueue`
(Source.cpp:299), recorded by key, and `notifies` counts the
`WM_TILE_READY` posts (Source.cpp:310). -/
structure CacheState where
  cache : List (Key × Img)
  jobs : List Key
  notifies : ℕ
deriving Repr, DecidableEq

/-- `gCache.find(key)` (Source.cpp:279). -/
def findEntry (c : List (Key × Img)) (k : Key) : Option Img :=
  (c.find? fun p => decide (p.1 = k)).map Prod.snd

/-- In-place mutation of the entry found for `k` (the `it->second = …`
writes of Source.cpp:281-287). -/
def setEntry (c : List (Key × Img)) (k : Key) (e : Img) : List (Key × Img) :=
  c.map fun p => if p.1 = k then (p.1, e) else p

/-- `gCache.erase(it)` for the entry of key `k` (Source.cpp:314): on a map
with pairwise-distinct keys this removes exactly that entry. -/
def eraseEntry (c : List (Key × Img)) (k : Key) : List (Key × Img) :=
  c.filter fun p => decide (¬ p.1 = k)

/-- The LRU comparison on `(key, lastUsed)` pairs used to sort eviction
candidates (Source.cpp:264 compares `a.second < b.second`; any order
nondecreasing in the timestamp is an admissible `std::sort` outcome). -/
def lruLE (a b : Key × ℕ) : Prop := a.2 ≤ b.2

instance : DecidableRel lruLE := fun a b => inferInstanceAs (Decidable (a.2 ≤ b.2))

instance : IsTotal (Key × ℕ) lruLE := ⟨fun a b => Nat.le_total a.2 b.2⟩

instance : IsTrans (Key × ℕ) lruLE := ⟨fun _ _ _ => Nat.le_trans⟩

/-- The sorted `(key, lastUsed)` vector `v` of `PurgeOldTiles`
(Source.cpp:262-264), ascending in the timestamp. -/
def lruSorted (c : List (Key × Img)) : List (Key × ℕ) :=
  List.insertionSort lruLE (c.map fun kv => (kv.1, kv.2.lastUsed))

/-- The keys erased by `PurgeOldTiles` (Source.cpp:265-267): the first
`removeCount = v.size() - kCacheLimit` keys of the sorted candidate list
(`v.size()` equals `c.length`, the sort and the projection being
length-preserving). -/
def lruVictims (c : List (Key × Img)) : List Key :=
  ((lruSorted c).take (c.length - kCacheLimit)).map Prod.fst

/-- `PurgeOldTiles` (Source.cpp:259-274): if the cache is over `kCacheLimit`,
sort `(key, lastUsed)` pairs ascending by timestamp and erase the first
`size - kCacheLimit` keys, releasing each erased entry's bitmap (the second
component collects the released handles, mirroring the `SAFE_RELEASE`
calls of Source.cpp:269) and discarding its bytes. -/
def PurgeOldTiles (c : List (Key × Img)) : List (Key × Img) × List ℕ :=
  if c.length ≤ kCacheLimit then (c, [])
  else
    ((c.filter fun p => decide (p.1 ∉ lruVictims c)),
     (c.filter fun p => decide (p.1 ∈ lruVictims c)).filterMap fun p => p.2.bmp)

/-- `GetOrFetchBitmap` (Source.cpp:276-320). On a hit the timestamp is
refreshed, an undecoded entry with bytes is decoded now (on the calling
thread) and its bytes cleared, and `(bmp, bmp ≠ null)` is returned. On a
miss a `pendingPlaceholder` is inserted, `PurgeOldTiles` runs, a fetch job
for the key is enqueued, and `(none, false)` is returned. The worker pool is
modelled as present (`if (gPool)`, Source.cpp:298, holds for the whole
window lifetime: the pool is created in `WM_CREATE` and destroyed in
`WM_DESTROY`). -/
def GetOrFetchBitmap (now : ℕ) (decode : List ℕ → Option ℕ) (key : Key)
    (st : CacheState) : (Option ℕ × Bool) × CacheState :=
  match findEntry st.cache key with
  | some e =>
    let e1 : Img := { e with lastUsed := now }
    let e2 : Img :=
      if e1.bmp = none ∧ e1.bytes ≠ [] then
        { e1 with bmp := decode e1.bytes, bytes := [] }
      else e1
    ((e2.bmp, e2.bmp.isSome), { st with cache := setEntry st.cache key e2 })
  | none =>
    let cache1 := st.cache ++ [(key, pendingPlaceholder now)]
    ((none, false),
     { st with cache := (PurgeOldTiles cache1).1, jobs := st.jobs ++ [key] })

/-- `HttpGet` (Source.cpp:180-213), at the level the claims observe: the
response is a status code and body chunks; bytes are accumulated only under
status 200, and the call reports success iff the status was 200 and the
accumulated body is nonempty (`return ok && !out.empty()`). -/
def HttpGet (status : ℕ) (chunks : List (List ℕ)) : Bool × List ℕ :=
  let out := if status = 200 then chunks.flatten else []
  ((status == 200) && !out.isEmpty, out)

/-- The commit phase of the fetch job lambda (Source.cpp:304-316): under the
lock, look the key up again; if present, a successful fetch stores the bytes
and posts `WM_TILE_READY` (the window handle guard `if (g.hwnd)` of
Source.cpp:310 is modelled as true), a failed fetch erases the entry; if the
entry was evicted meanwhile, the result is discarded. -/
def fetchCommit (ok : Bool) (buf : List ℕ) (key : Key) (st : CacheState) :
    CacheState :=
  match findEntry st.cache key with
  | some e =>
    if ok then
      { st with cache := setEntry st.cache key { e with bytes := buf },
                notifies := st.notifies + 1 }
    else
      { st with cache := eraseEntry st.cache key }
  | none => st

/-- The whole fetch job (Source.cpp:299-317): `HttpGet` then commit. -/
def fetchJob (status : ℕ) (chunks : List (List ℕ)) (key : Key)
    (st : CacheState) : CacheState :=
  fetchCommit (HttpGet status chunks).1 (HttpGet status chunks).2 key st

/-- The state reached by a sequence of `GetOrFetchBitmap` calls, given as
`(now, key)` pairs. -/
def runCalls (decode : List ℕ → Option ℕ) (calls : List (ℕ × Key))
    (st : CacheState) : CacheState :=
  calls.foldl (fun s c => (GetOrFetchBitmap c.1 decode c.2 s).2) st

/-- The state reached by repeated `GetOrFetchBitmap` calls for one fixed key
at the given instants. -/
def runSameKey (decode : List ℕ → Option ℕ) (key : Key) (ns : List ℕ)
    (st : CacheState) : CacheState :=
  ns.foldl (fun s n => (GetOrFetchBitmap n decode key s).2) st

/-- The empty initial cache state (`gCache` starts empty, Source.cpp:105). -/
def initState : CacheState := { cache := [], jobs := [], notifies := 0 }

/-- A concrete 257-entry over-capacity cache, used to exercise the eviction
pass on explicit input. -/
def purgeWitnessCache : List (Key × Img) :=
  (List.range 257).map fun i => (i, { bytes := [], bmp := none, lastUsed := i })

/-- `std::clamp` on integers, as used by `GetJmaZoomLevel` (Source.cpp:444)
and `DrawScene` (Source.cpp:457). -/
def clampInt (v lo hi : ℤ) : ℤ := min (max v lo) hi

/-- `GetJmaZoomLevel` (Source.cpp:442-445): clamp into the JMA range. -/
def GetJmaZoomLevel (zCurrent : ℤ) : ℤ := clampInt zCurrent MIN_DL_ZOOM MAX_DL_ZOOM

/-- The overlay zoom candidate computed by `drawJmaOverlay`
(Source.cpp:509-520): `floor(Z) - 1` when the continuous zoom `Z` is exactly
integral, `floor(Z)` otherwise. -/
def zJMACandidate (Z : ℚ) : ℤ :=
  let f := Int.floor Z
  if Z = (f : ℚ) then f - 1 else f

/-- The overlay zoom actually used (Source.cpp:523): candidate clamped. -/
def zJMA (Z : ℚ) : ℤ := GetJmaZoomLevel (zJMACandidate Z)

/-- `std::clamp`-style clamp on rationals, matching the `Clamp` helper
(Source.cpp:175-177). -/
def clampQ (v lo hi : ℚ) : ℚ := min (max v lo) hi

/-- The animation globals `gAnimPlaying`, `gAnimFrom`, `gAnimTo`,
`gTimeIndex`, `gAnimStart` (Source.cpp:108-113). -/
structure AnimState where
  gAnimPlaying : Bool
  gAnimFrom : ℤ
  gAnimTo : ℤ
  gTimeIndex : ℤ
  gAnimStart : ℚ
deriving Repr, DecidableEq

/-- `StartAnimTo` (Source.cpp:412-418): given the current time-series length,
ignore out-of-range or no-op targets; otherwise record from/to, stamp the
start instant and set the playing flag. -/
def StartAnimTo (timesLen : ℤ) (now : ℚ) (toIndex : ℤ) (st : AnimState) :
    AnimState :=
  if toIndex < 0 ∨ timesLen ≤ toIndex ∨ toIndex = st.gTimeIndex then st
  else { st with gAnimFrom := st.gTimeIndex, gAnimTo := toIndex,
                 gAnimStart := now, gAnimPlaying := true }

/-- The raw animation progress `(now - gAnimStart) / kAnimDurationSec`
computed each frame (Source.cpp:579). -/
def animTRaw (now : ℚ) (st : AnimState) : ℚ :=
  (now - st.gAnimStart) / kAnimDurationSec

/-- `gAnimT`, the clamped progress (Source.cpp:580). -/
def animT (now : ℚ) (st : AnimState) : ℚ := clampQ (animTRaw now st) 0 1

/-- The overlay-blend step of `DrawScene` (Source.cpp:577-589): while
animating, draw `(gAnimFrom, (1-t)·α)` then `(gAnimTo, t·α)` with
`t = gAnimT`, and finish the animation (clear the flag, adopt the target
index) once the raw progress reaches 1; otherwise draw the single pair
`(gTimeIndex, α)`. Returns the drawn `(timeIndex, alpha)` pairs and the
updated animation state. -/
def animTick (now : ℚ) (st : AnimState) : List (ℤ × ℚ) × AnimState :=
  if st.gAnimPlaying then
    let t := animT now st
    let pairs := [(st.gAnimFrom, (1 - t) * kOverlayAlpha),
                  (st.gAnimTo, t * kOverlayAlpha)]
    if animTRaw now st ≥ 1 then
      (pairs, { st with gAnimPlaying := false, gTimeIndex := st.gAnimTo })
    else (pairs, st)
  else ([(st.gTimeIndex, kOverlayAlpha)], st)

/-- `LonLatToWorldX` (Source.cpp:161), over `ℝ`. -/
noncomputable def LonLatToWorldX (lon : ℝ) (z : ℕ) : ℝ :=
  (TILE_SIZE : ℝ) * 2 ^ z * ((lon + 180) / 360)

/-- `LonLatToWorldY` (Source.cpp:162-168), over `ℝ`: clamp the latitude to
±85.05112878°, then apply the Web-Mercator forward map. -/
noncomputable def LonLatToWorldY (latDeg : ℝ) (z : ℕ) : ℝ :=
  let s : ℝ := (TILE_SIZE : ℝ) * 2 ^ z
  let lat := min (max latDeg (-85.05112878)) 85.05112878
  let rad := lat * Real.pi / 180
  let sy := Real.log (Real.tan (Real.pi / 4 + rad / 2))
  s * (1 - sy / Real.pi) / 2

/-- `WorldXToLon` (Source.cpp:169), over `ℝ`. -/
noncomputable def WorldXToLon (wx : ℝ) (z : ℕ) : ℝ :=
  wx / ((TILE_SIZE : ℝ) * 2 ^ z) * 360 - 180

/-- `WorldYToLat` (Source.cpp:170-174), over `ℝ`, exactly as written in the
source: `y = 2*(1 - wy/s)` and then `180/π · atan(sinh(y·π))`. -/
noncomputable def WorldYToLat (wy : ℝ) (z : ℕ) : ℝ :=
  let s : ℝ := (TILE_SIZE : ℝ) * 2 ^ z
  let y := 2 * (1 - wy / s)
  180 / Real.pi * Real.arctan (Real.sinh (y * Real.pi))

/-! ### Generic facts about the cache primitives -/

theorem findEntry_eq_none_iff (c : List (Key × Img)) (k : Key) :
    findEntry c k = none ↔ k ∉ c.map Prod.fst := by
  simp [findEntry, List.find?_eq_none, List.mem_map]
  constructor
  · intro h x hx
    exact h k x hx rfl
  · intro h a b hab hak
    cases hak
    exact h b hab

theorem findEntry_mem {c : List (Key × Img)} {k : Key} {e : Img}
    (h : findEntry c k = some e) : (k, e) ∈ c := by
  unfold findEntry at h
  rw [Option.map_eq_some'] at h
  obtain ⟨p, hp, he⟩ := h
  obtain ⟨k', e'⟩ := p
  have h2 := List.find?_some hp
  simp only [decide_eq_true_eq] at h2
  cases h2
  cases he
  exact List.mem_of_find?_eq_some hp

theorem keys_setEntry (c : List (Key × Img)) (k : Key) (e : Img) :
    (setEntry c k e).map Prod.fst = c.map Prod.fst := by
  simp only [setEntry, List.map_map]
  apply List.map_congr_left
  intro p _
  by_cases h : p.1 = k <;> simp [h]

theorem length_setEntry (c : List (Key × Img)) (k : Key) (e : Img) :
    (setEntry c k e).length = c.length := by
  simp [setEntry]

theorem findEntry_eraseEntry (c : List (Key × Img)) (k : Key) :
    findEntry (eraseEntry c k) k = none := by
  simp [findEntry, eraseEntry, List.find?_eq_none, List.mem_filter]

theorem jobs_fetchCommit (ok : Bool) (buf : List ℕ) (key : Key)
    (st : CacheState) : (fetchCommit ok buf key st).jobs = st.jobs := by
  unfold fetchCommit
  cases findEntry st.cache key <;> simp
  split <;> rfl

/-! ### The eviction pass -/

theorem length_lruSorted (c : List (Key × Img)) :
    (lruSorted c).length = c.length := by
  simp [lruSorted, List.length_insertionSort]

theorem keys_lruSorted_perm (c : List (Key × Img)) :
    List.Perm ((lruSorted c).map Prod.fst) (c.map Prod.fst) := by
  have h1 : List.Perm (lruSorted c) (c.map fun kv => (kv.1, kv.2.lastUsed)) :=
    List.perm_insertionSort lruLE _
  have h2 := h1.map Prod.fst
  have h3 : ((c.map fun kv => (kv.1, kv.2.lastUsed)).map Prod.fst)
      = c.map Prod.fst := by
    simp [List.map_map, Function.comp_def]
  rw [h3] at h2
  exact h2

theorem nodup_keys_lruSorted {c : List (Key × Img)}
    (hn : (c.map Prod.fst).Nodup) : ((lruSorted c).map Prod.fst).Nodup :=
  (keys_lruSorted_perm c).nodup_iff.mpr hn

theorem lruVictims_sub_keys (c : List (Key × Img)) :
    ∀ x ∈ lruVictims c, x ∈ c.map Prod.fst := by
  intro x hx
  simp only [lruVictims, List.mem_map] at hx
  obtain ⟨w, hw, rfl⟩ := hx
  have hwv : w ∈ lruSorted c := (List.take_sublist _ _).subset hw
  exact (keys_lruSorted_perm c).subset (List.mem_map_of_mem Prod.fst hwv)

theorem nodup_lruVictims {c : List (Key × Img)}
    (hn : (c.map Prod.fst).Nodup) : (lruVictims c).Nodup := by
  have hsub : List.Sublist (lruVictims c) ((lruSorted c).map Prod.fst) :=
    (List.take_sublist _ _).map Prod.fst
  exact List.Nodup.sublist hsub (nodup_keys_lruSorted hn)

theorem length_lruVictims (c : List (Key × Img)) :
    (lruVictims c).length = c.length - kCacheLimit := by
  rw [lruVictims, List.length_map, List.length_take, length_lruSorted]
  exact Nat.min_eq_left (Nat.sub_le _ _)

theorem perm_of_nodup_of_toFinset_eq {l l' : List Key} (h : l.Nodup)
    (h' : l'.Nodup) (hf : l.toFinset = l'.toFinset) : List.Perm l l' :=
  ((List.Perm.of_eq (List.Nodup.dedup h)).symm.trans
    (List.toFinset_eq_iff_perm_dedup.mp hf)).trans
    (List.Perm.of_eq (List.Nodup.dedup h'))

theorem length_filter_mem_eq {c : List (Key × Img)}
    (hn : (c.map Prod.fst).Nodup) (v : List Key) (hv : v.Nodup)
    (hsub : ∀ x ∈ v, x ∈ c.map Prod.fst) :
    (c.filter fun p => decide (p.1 ∈ v)).length = v.length := by
  have hmapfil : (c.filter fun p => decide (p.1 ∈ v)).map Prod.fst
      = (c.map Prod.fst).filter fun x => decide (x ∈ v) := by
    simp [List.filter_map, Function.comp_def]
  have hfn : ((c.map Prod.fst).filter fun x => decide (x ∈ v)).Nodup :=
    hn.filter _
  have hperm :
      List.Perm ((c.map Prod.fst).filter fun x => decide (x ∈ v)) v := by
    apply perm_of_nodup_of_toFinset_eq hfn hv
    ext a
    simp only [List.mem_toFinset, List.mem_filter, decide_eq_true_eq]
    exact ⟨fun hx => hx.2, fun hx => ⟨hsub a hx, hx⟩⟩
  calc (c.filter fun p => decide (p.1 ∈ v)).length
      = ((c.filter fun p => decide (p.1 ∈ v)).map Prod.fst).length :=
        (List.length_map _ _).symm
    _ = ((c.map Prod.fst).filter fun x => decide (x ∈ v)).length := by
        rw [hmapfil]
    _ = v.length := hperm.length_eq

theorem length_filter_not_mem (c : List (Key × Img)) (v : List Key) :
    (c.filter fun p => decide (p.1 ∉ v)).length
      = c.length - (c.filter fun p => decide (p.1 ∈ v)).length := by
  have hperm := List.filter_append_perm (fun p => decide (p.1 ∈ v)) c
  have hlen := hperm.length_eq
  rw [List.length_append] at hlen
  have hcongr : (c.filter fun p => !decide (p.1 ∈ v))
      = c.filter fun p => decide (p.1 ∉ v) := by
    apply List.filter_congr
    intro p _
    simp [decide_not]
  rw [hcongr] at hlen
  omega

theorem purge_of_le {c : List (Key × Img)} (h : c.length ≤ kCacheLimit) :
    PurgeOldTiles c = (c, []) := by
  rw [PurgeOldTiles, if_pos h]

theorem purge_sublist (c : List (Key × Img)) :
    List.Sublist (PurgeOldTiles c).1 c := by
  rw [PurgeOldTiles]
  split
  · exact List.Sublist.refl c
  · exact List.filter_sublist c

theorem purge_length_eq {c : List (Key × Img)} (hn : (c.map Prod.fst).Nodup)
    (h : kCacheLimit < c.length) :
    (PurgeOldTiles c).1.length = kCacheLimit := by
  rw [PurgeOldTiles, if_neg (by omega)]
  simp only
  rw [length_filter_not_mem,
    length_filter_mem_eq hn (lruVictims c) (nodup_lruVictims hn)
      (lruVictims_sub_keys c),
    length_lruVictims c]
  omega

theorem purge_removes_oldest {c : List (Key × Img)}
    (hn : (c.map Prod.fst).Nodup) (h : kCacheLimit < c.length) :
    ∀ p ∈ c, p ∉ (PurgeOldTiles c).1 → ∀ q ∈ (PurgeOldTiles c).1,
      p.2.lastUsed ≤ q.2.lastUsed := by
  intro p hp hpn q hq
  rw [PurgeOldTiles, if_neg (by omega)] at hpn hq
  simp only [List.mem_filter, decide_eq_true_eq] at hpn hq
  have hpv : p.1 ∈ lruVictims c := by
    by_contra hnv
    exact hpn ⟨hp, hnv⟩
  obtain ⟨hqc, hqv⟩ := hq
  have hvnodup : ((lruSorted c).map Prod.fst).Nodup := nodup_keys_lruSorted hn
  have hpmem : (p.1, p.2.lastUsed) ∈ lruSorted c := by
    have hm : (p.1, p.2.lastUsed) ∈ c.map fun kv => (kv.1, kv.2.lastUsed) :=
      List.mem_map_of_mem _ hp
    exact (List.perm_insertionSort lruLE _).symm.subset hm
  have hqmem : (q.1, q.2.lastUsed) ∈ lruSorted c := by
    have hm : (q.1, q.2.lastUsed) ∈ c.map fun kv => (kv.1, kv.2.lastUsed) :=
      List.mem_map_of_mem _ hqc
    exact (List.perm_insertionSort lruLE _).symm.subset hm
  rw [lruVictims] at hpv
  obtain ⟨w, hw, hw1⟩ := List.mem_map.mp hpv
  have hweq : w = (p.1, p.2.lastUsed) :=
    List.inj_on_of_nodup_map hvnodup ((List.take_sublist _ _).subset hw) hpmem
      (by rw [hw1])
  have hqtake : (q.1, q.2.lastUsed) ∉ (lruSorted c).take (c.length - kCacheLimit) := by
    intro hmem
    apply hqv
    simp only [lruVictims, List.mem_map]
    exact ⟨(q.1, q.2.lastUsed), hmem, rfl⟩
  have hqdrop : (q.1, q.2.lastUsed) ∈ (lruSorted c).drop (c.length - kCacheLimit) := by
    have hsplit : (q.1, q.2.lastUsed) ∈
        (lruSorted c).take (c.length - kCacheLimit)
          ++ (lruSorted c).drop (c.length - kCacheLimit) := by
      rw [List.take_append_drop]
      exact hqmem
    rcases List.mem_append.mp hsplit with h1 | h1
    · exact absurd h1 hqtake
    · exact h1
  have hsorted : List.Pairwise lruLE (lruSorted c) :=
    List.sorted_insertionSort lruLE _
  have hsplit2 : List.Pairwise lruLE
      ((lruSorted c).take (c.length - kCacheLimit)
        ++ (lruSorted c).drop (c.length - kCacheLimit)) := by
    rw [List.take_append_drop]
    exact hsorted
  exact (List.pairwise_append.mp hsplit2).2.2 _ (hweq ▸ hw) _ hqdrop

theorem purge_releases_bmp (c : List (Key × Img)) (h : kCacheLimit < c.length) :
    ∀ p ∈ c, p ∉ (PurgeOldTiles c).1 → ∀ b, p.2.bmp = some b →
      b ∈ (PurgeOldTiles c).2 := by
  intro p hp hpn b hb
  rw [PurgeOldTiles, if_neg (by omega)] at hpn ⊢
  simp only [List.mem_filter, decide_eq_true_eq] at hpn
  have hpv : p.1 ∈ lruVictims c := by
    by_contra hnv
    exact hpn ⟨hp, hnv⟩
  simp only [List.mem_filterMap]
  exact ⟨p, List.mem_filter.mpr ⟨hp, by simpa using hpv⟩, hb⟩

/-! ### Claim C3: eviction is strict LRU -/

/-- Claim C3: when the eviction pass runs on an over-capacity cache with
distinct keys, the surviving entries are a sublist of the cache of length
exactly `kCacheLimit` (so exactly `size - capacity` entries are removed);
every removed entry's timestamp is at most every survivor's timestamp; and
every removed entry's decoded bitmap is among the released handles. -/
theorem purge_lru_eviction (c : List (Key × Img))
    (hn : (c.map Prod.fst).Nodup) (h : kCacheLimit < c.length) :
    (PurgeOldTiles c).1.length = kCacheLimit ∧
    List.Sublist (PurgeOldTiles c).1 c ∧
    (∀ p ∈ c, p ∉ (PurgeOldTiles c).1 → ∀ q ∈ (PurgeOldTiles c).1,
        p.2.lastUsed ≤ q.2.lastUsed) ∧
    (∀ p ∈ c, p ∉ (PurgeOldTiles c).1 → ∀ b, p.2.bmp = some b →
        b ∈ (PurgeOldTiles c).2) :=
  ⟨purge_length_eq hn h, purge_sublist c, purge_removes_oldest hn h,
   purge_releases_bmp c h⟩

theorem purge_lru_eviction_witness :
    ((purgeWitnessCache.map Prod.fst).Nodup ∧
      kCacheLimit < purgeWitnessCache.length) ∧
    (PurgeOldTiles purgeWitnessCache).1.length = kCacheLimit := by
  have hn : (purgeWitnessCache.map Prod.fst).Nodup := by
    have hkeys : purgeWitnessCache.map Prod.fst = List.range 257 := by
      simp [purgeWitnessCache, List.map_map, Function.comp_def]
    rw [hkeys]
    exact List.nodup_range _
  have hlen : kCacheLimit < purgeWitnessCache.length := by
    simp [purgeWitnessCache, kCacheLimit]
  exact ⟨⟨hn, hlen⟩, (purge_lru_eviction purgeWitnessCache hn hlen).1⟩

/-! ### Claims C1 and C2: capacity invariant and fetch deduplication -/

theorem getOrFetch_preserves_inv (now : ℕ) (decode : List ℕ → Option ℕ)
    (key : Key) (st : CacheState)
    (hlen : st.cache.length ≤ kCacheLimit)
    (hn : (st.cache.map Prod.fst).Nodup) :
    (GetOrFetchBitmap now decode key st).2.cache.length ≤ kCacheLimit ∧
    ((GetOrFetchBitmap now decode key st).2.cache.map Prod.fst).Nodup := by
  cases hf : findEntry st.cache key with
  | some e =>
    simp only [GetOrFetchBitmap, hf]
    rw [length_setEntry, keys_setEntry]
    exact ⟨hlen, hn⟩
  | none =>
    simp only [GetOrFetchBitmap, hf]
    have hkey : key ∉ st.cache.map Prod.fst := (findEntry_eq_none_iff _ _).mp hf
    have hn1 : ((st.cache ++ [(key, pendingPlaceholder now)]).map
        Prod.fst).Nodup := by
      rw [List.map_append, List.nodup_append]
      refine ⟨hn, by simp, ?_⟩
      intro a ha hb
      simp only [List.map_cons, List.map_nil, List.mem_singleton] at hb
      subst hb
      exact hkey ha
    by_cases hlen1 :
        (st.cache ++ [(key, pendingPlaceholder now)]).length ≤ kCacheLimit
    · rw [purge_of_le hlen1]
      exact ⟨hlen1, hn1⟩
    · push_neg at hlen1
      constructor
      · rw [purge_length_eq hn1 hlen1]
      · have hsub :=
          (purge_sublist (st.cache ++ [(key, pendingPlaceholder now)])).map
            Prod.fst
        exact List.Nodup.sublist hsub hn1

theorem runCalls_inv (decode : List ℕ → Option ℕ) (calls : List (ℕ × Key)) :
    ∀ st : CacheState, st.cache.length ≤ kCacheLimit →
      (st.cache.map Prod.fst).Nodup →
      (runCalls decode calls st).cache.length ≤ kCacheLimit ∧
      ((runCalls decode calls st).cache.map Prod.fst).Nodup := by
  induction calls with
  | nil => intro st h1 h2; exact ⟨h1, h2⟩
  | cons c rest ih =>
    intro st h1 h2
    have h := getOrFetch_preserves_inv c.1 decode c.2 st h1 h2
    simp only [runCalls, List.foldl_cons] at ih ⊢
    exact ih _ h.1 h.2

/-- Claim C1: after any sequence of `GetOrFetchBitmap` calls starting from
the empty cache, the cache holds at most `kCacheLimit = 256` entries: a miss
inserts a placeholder and the eviction pass brings the size back to the
capacity whenever it exceeds it. -/
theorem cache_size_bounded (decode : List ℕ → Option ℕ)
    (calls : List (ℕ × Key)) :
    (runCalls decode calls initState).cache.length ≤ kCacheLimit :=
  (runCalls_inv decode calls initState (by simp [initState])
    (by simp [initState])).1

theorem hits_preserve (decode : List ℕ → Option ℕ) (key : Key) (ns : List ℕ) :
    ∀ st : CacheState, key ∈ st.cache.map Prod.fst →
      (runSameKey decode key ns st).jobs = st.jobs ∧
      (runSameKey decode key ns st).cache.map Prod.fst
        = st.cache.map Prod.fst := by
  induction ns with
  | nil => intro st _; exact ⟨rfl, rfl⟩
  | cons n rest ih =>
    intro st h
    obtain ⟨e, he⟩ : ∃ e, findEntry st.cache key = some e := by
      cases hfe : findEntry st.cache key with
      | none =>
        rw [findEntry_eq_none_iff] at hfe
        exact absurd h hfe
      | some e => exact ⟨e, rfl⟩
    have hstep : (GetOrFetchBitmap n decode key st).2.jobs = st.jobs ∧
        (GetOrFetchBitmap n decode key st).2.cache.map Prod.fst
          = st.cache.map Prod.fst := by
      simp only [GetOrFetchBitmap, he]
      constructor
      · trivial
      · exact keys_setEntry _ _ _
    have hmem2 : key ∈ (GetOrFetchBitmap n decode key st).2.cache.map
        Prod.fst := by
      rw [hstep.2]; exact h
    have hrest := ih _ hmem2
    simp only [runSameKey, List.foldl_cons] at hrest ⊢
    exact ⟨hrest.1.trans hstep.1, hrest.2.trans hstep.2⟩

/-- Claim C2: from a state not containing the key (and with room for the
placeholder so it survives insertion), any nonempty run of `GetOrFetchBitmap`
calls for that key enqueues exactly one fetch job for it: the first miss
appends one job and inserts the entry, and every later call finds the entry
and enqueues nothing. -/
theorem single_fetch_per_key (decode : List ℕ → Option ℕ) (key : Key)
    (st : CacheState) (ns : List ℕ)
    (hmiss : key ∉ st.cache.map Prod.fst)
    (hlen : st.cache.length < kCacheLimit) (hne : ns ≠ []) :
    (runSameKey decode key ns st).jobs.count key
      = st.jobs.count key + 1 ∧
    key ∈ (runSameKey decode key ns st).cache.map Prod.fst ∧
    (∀ (n : ℕ) (st' : CacheState), key ∈ st'.cache.map Prod.fst →
        (GetOrFetchBitmap n decode key st').2.jobs = st'.jobs) ∧
    (∀ (n : ℕ) (st' : CacheState), key ∉ st'.cache.map Prod.fst →
        (GetOrFetchBitmap n decode key st').2.jobs = st'.jobs ++ [key]) := by
  have hhit : ∀ (n : ℕ) (st' : CacheState), key ∈ st'.cache.map Prod.fst →
      (GetOrFetchBitmap n decode key st').2.jobs = st'.jobs := by
    intro n st' h
    obtain ⟨e, he⟩ : ∃ e, findEntry st'.cache key = some e := by
      cases hfe : findEntry st'.cache key with
      | none =>
        rw [findEntry_eq_none_iff] at hfe
        exact absurd h hfe
      | some e => exact ⟨e, rfl⟩
    simp only [GetOrFetchBitmap, he]
  have hmissjobs : ∀ (n : ℕ) (st' : CacheState),
      key ∉ st'.cache.map Prod.fst →
      (GetOrFetchBitmap n decode key st').2.jobs = st'.jobs ++ [key] := by
    intro n st' h
    have hfe : findEntry st'.cache key = none :=
      (findEntry_eq_none_iff _ _).mpr h
    simp only [GetOrFetchBitmap, hfe]
  obtain ⟨n, rest, rfl⟩ := List.exists_cons_of_ne_nil hne
  have hfe : findEntry st.cache key = none :=
    (findEntry_eq_none_iff _ _).mpr hmiss
  have hlen1 : (st.cache ++ [(key, pendingPlaceholder n)]).length
      ≤ kCacheLimit := by
    rw [List.length_append]
    simp only [List.length_singleton]
    omega
  have hstep : (GetOrFetchBitmap n decode key st).2
      = { st with
          cache := st.cache ++ [(key, pendingPlaceholder n)],
          jobs := st.jobs ++ [key] } := by
    simp only [GetOrFetchBitmap, hfe, purge_of_le hlen1]
  have hmem1 : key ∈ (GetOrFetchBitmap n decode key st).2.cache.map
      Prod.fst := by
    rw [hstep]
    simp
  have hrest := hits_preserve decode key rest _ hmem1
  refine ⟨?_, ?_, hhit, hmissjobs⟩
  · have : (runSameKey decode key (n :: rest) st).jobs
        = (GetOrFetchBitmap n decode key st).2.jobs := by
      simp only [runSameKey, List.foldl_cons] at hrest ⊢
      exact hrest.1
    rw [this, hstep]
    simp [List.count_append]
  · have : (runSameKey decode key (n :: rest) st).cache.map Prod.fst
        = (GetOrFetchBitmap n decode key st).2.cache.map Prod.fst := by
      simp only [runSameKey, List.foldl_cons] at hrest ⊢
      exact hrest.2
    rw [this]
    exact hmem1

theorem single_fetch_per_key_witness :
    ((0 : Key) ∉ initState.cache.map Prod.fst ∧
      initState.cache.length < kCacheLimit ∧ ([0, 1] : List ℕ) ≠ []) ∧
    (runSameKey (fun _ => none) 0 [0, 1] initState).jobs.count 0
      = initState.jobs.count 0 + 1 :=
  ⟨⟨by simp [initState], by simp [initState, kCacheLimit], by simp⟩,
   (single_fetch_per_key (fun _ => none) 0 initState [0, 1]
      (by simp [initState]) (by simp [initState, kCacheLimit])
      (by simp)).1⟩

/-! ### Claim C4: projection round trip -/

theorem lonLatToWorldY_equator : LonLatToWorldY 0 0 = 128 := by
  have hclamp : min (max (0 : ℝ) (-85.05112878)) 85.05112878 = 0 := by norm_num
  simp only [LonLatToWorldY, TILE_SIZE, hclamp]
  norm_num [Real.tan_pi_div_four]

theorem worldYToLat_midpoint :
    WorldYToLat 128 0 = 180 / Real.pi * Real.arctan (Real.sinh Real.pi) := by
  simp only [WorldYToLat, TILE_SIZE]
  norm_num

/-- Claim C4: the longitude round trip `WorldXToLon ∘ LonLatToWorldX` is
exact, but the latitude round trip is NOT: at the equator (latitude 0, inside
the clamp range) the code's `WorldYToLat` applied to `LonLatToWorldY 0 0`
yields `180/π·atan(sinh π)` (≈ 85.05°), not 0, because `WorldYToLat` computes
`y = 2*(1 - wy/s)` where the Web-Mercator inverse requires `1 - 2*wy/s`. -/
theorem projection_roundtrip_bug :
    (∀ (lon : ℝ) (z : ℕ), WorldXToLon (LonLatToWorldX lon z) z = lon) ∧
    LonLatToWorldY 0 0 = 128 ∧
    WorldYToLat (LonLatToWorldY 0 0) 0 =
      180 / Real.pi * Real.arctan (Real.sinh Real.pi) ∧
    WorldYToLat (LonLatToWorldY 0 0) 0 ≠ 0 := by
  have hlat : WorldYToLat (LonLatToWorldY 0 0) 0 =
      180 / Real.pi * Real.arctan (Real.sinh Real.pi) := by
    rw [lonLatToWorldY_equator, worldYToLat_midpoint]
  refine ⟨?_, lonLatToWorldY_equator, hlat, ?_⟩
  · intro lon z
    have hs : ((TILE_SIZE : ℕ) : ℝ) * 2 ^ z ≠ 0 := by
      simp only [TILE_SIZE]
      positivity
    simp only [WorldXToLon, LonLatToWorldX]
    field_simp
    ring
  · rw [hlat]
    apply mul_ne_zero
    · exact div_ne_zero (by norm_num) Real.pi_ne_zero
    · intro h
      have h2 := Real.arctan_eq_zero_iff.mp h
      rw [Real.sinh_eq_zero] at h2
      exact Real.pi_ne_zero h2

/-! ### Claim C5: overlay zoom selection -/

/-- Claim C5: the overlay zoom candidate is `floor(Z) - 1` at exactly
integral continuous zooms and `floor(Z)` otherwise (equivalently, always
`ceil(Z) - 1`), then clamped into `[4, 13]`; in particular `Z = 7.0` gives
candidate 6 and `Z = 7.3` gives candidate 7. -/
theorem overlay_zoom_selection :
    (∀ Z : ℚ, zJMA Z =
        clampInt (if Z = (Int.floor Z : ℚ) then Int.floor Z - 1 else Int.floor Z) 4 13) ∧
    (∀ Z : ℚ, zJMACandidate Z = Int.ceil Z - 1) ∧
    zJMACandidate 7 = 6 ∧ zJMACandidate (73 / 10) = 7 ∧
    zJMA 7 = 6 ∧ zJMA (73 / 10) = 7 ∧
    (∀ Z : ℚ, MIN_DL_ZOOM ≤ zJMA Z ∧ zJMA Z ≤ MAX_DL_ZOOM) := by
  refine ⟨fun Z => rfl, ?_,
    by norm_num [zJMACandidate],
    by norm_num [zJMACandidate],
    by norm_num [zJMA, zJMACandidate, GetJmaZoomLevel, clampInt, MIN_DL_ZOOM,
      MAX_DL_ZOOM],
    by norm_num [zJMA, zJMACandidate, GetJmaZoomLevel, clampInt, MIN_DL_ZOOM,
      MAX_DL_ZOOM], ?_⟩
  · intro Z
    unfold zJMACandidate
    by_cases h : Z = (Int.floor Z : ℚ)
    · rw [if_pos h]
      have hc : Int.ceil Z = Int.floor Z := by
        conv_lhs => rw [h]
        exact Int.ceil_intCast _
      omega
    · rw [if_neg h]
      have hc : Int.ceil Z = Int.floor Z + 1 := by
        rw [Int.ceil_eq_iff]
        constructor
        · push_cast
          have hle := Int.floor_le Z
          have hne : (Int.floor Z : ℚ) ≠ Z := fun hh => h hh.symm
          have := lt_of_le_of_ne hle hne
          linarith
        · push_cast
          have := (Int.lt_floor_add_one Z).le
          push_cast at this
          linarith
      omega
  · intro Z
    unfold zJMA GetJmaZoomLevel clampInt MIN_DL_ZOOM MAX_DL_ZOOM
    constructor
    · exact le_min (le_max_right _ _) (by decide)
    · exact min_le_right _ _

/-! ### Claim C9: animation cross-fade -/

/-- Claim C9: while animating, each tick computes
`t = clamp((now - start)/duration, 0, 1)` and draws exactly
`(fromIndex, (1-t)·α)` and `(toIndex, t·α)`; `t` is monotone in `now`; when
the raw progress reaches 1 the current index becomes `toIndex` and the state
returns to idle; when idle only `(currentIndex, α)` is drawn. -/
theorem animTick_crossfade (st : AnimState) (now now1 now2 : ℚ) :
    (animT now st = clampQ ((now - st.gAnimStart) / kAnimDurationSec) 0 1) ∧
    (st.gAnimPlaying = true →
      (animTick now st).1 =
        [(st.gAnimFrom, (1 - animT now st) * kOverlayAlpha),
         (st.gAnimTo, animT now st * kOverlayAlpha)]) ∧
    (now1 ≤ now2 → animT now1 st ≤ animT now2 st) ∧
    (st.gAnimPlaying = true → 1 ≤ animTRaw now st →
      animT now st = 1 ∧
      (animTick now st).2.gAnimPlaying = false ∧
      (animTick now st).2.gTimeIndex = st.gAnimTo) ∧
    (st.gAnimPlaying = true → animTRaw now st < 1 → (animTick now st).2 = st) ∧
    (st.gAnimPlaying = false →
      (animTick now st).1 = [(st.gTimeIndex, kOverlayAlpha)] ∧
      (animTick now st).2 = st) := by
  have hd : (0 : ℚ) < kAnimDurationSec := by norm_num [kAnimDurationSec]
  refine ⟨rfl, ?_, ?_, ?_, ?_, ?_⟩
  · intro h
    simp only [animTick, h, if_true]
    split <;> rfl
  · intro h
    unfold animT animTRaw clampQ
    have h1 : (now1 - st.gAnimStart) / kAnimDurationSec ≤
        (now2 - st.gAnimStart) / kAnimDurationSec :=
      div_le_div_of_nonneg_right (by linarith) hd.le
    exact min_le_min (max_le_max h1 le_rfl) le_rfl
  · intro h h1
    have ht : animT now st = 1 := by
      unfold animT clampQ
      rw [max_eq_left (le_trans zero_le_one h1), min_eq_right h1]
    refine ⟨ht, ?_, ?_⟩ <;> simp [animTick, h, ge_iff_le, h1]
  · intro h h1
    simp [animTick, h, ge_iff_le, not_le.mpr h1]
  · intro h
    constructor <;> simp [animTick, h]

theorem animTick_crossfade_witness :
    (({ gAnimPlaying := true, gAnimFrom := 1, gAnimTo := 2, gTimeIndex := 1,
        gAnimStart := 0 } : AnimState).gAnimPlaying = true ∧
      (1 : ℚ) ≤ animTRaw (13 / 20)
        { gAnimPlaying := true, gAnimFrom := 1, gAnimTo := 2, gTimeIndex := 1,
          gAnimStart := 0 }) ∧
    (animTick (13 / 20)
        { gAnimPlaying := true, gAnimFrom := 1, gAnimTo := 2, gTimeIndex := 1,
          gAnimStart := 0 }).2.gAnimPlaying = false ∧
    (animTick (13 / 20)
        { gAnimPlaying := true, gAnimFrom := 1, gAnimTo := 2, gTimeIndex := 1,
          gAnimStart := 0 }).2.gTimeIndex = 2 :=
  ⟨⟨rfl, by norm_num [animTRaw, kAnimDurationSec]⟩,
    ((animTick_crossfade
      { gAnimPlaying := true, gAnimFrom := 1, gAnimTo := 2, gTimeIndex := 1,
        gAnimStart := 0 } (13 / 20) 0 0).2.2.2.1 rfl
      (by norm_num [animTRaw, kAnimDurationSec])).2.1,
    ((animTick_crossfade
      { gAnimPlaying := true, gAnimFrom := 1, gAnimTo := 2, gTimeIndex := 1,
        gAnimStart := 0 } (13 / 20) 0 0).2.2.2.1 rfl
      (by norm_num [animTRaw, kAnimDurationSec])).2.2⟩

/-! ### Claim C6: pending / bytes-ready behaviour of GetOrFetchBitmap -/

/-- Counterexample to claim C6 as stated: on an entry whose bytes are ready
and whose decode succeeds, the very same call returns the decoded bitmap
with ready = true, not `(none, false)`. -/
theorem bytesReady_success_counterexample :
    (GetOrFetchBitmap 1 (fun _ => some 42) 0
      { cache := [(0, { bytes := [7], bmp := none, lastUsed := 0 })],
        jobs := [], notifies := 0 }).1 ≠ (none, false) := by decide

/-- Claim C6 (amended): for an existing undecoded entry, a Pending entry (no
bytes) yields `(none, false)` and only refreshes the timestamp, while a
BytesReady entry is decoded on the calling thread during this same call and
the decode result is returned — `(bitmap, true)` on success, `(none, false)`
on failure — with the bytes consumed, so decode happens at most once per
entry; neither case enqueues a fetch job. -/
theorem getOrFetch_undecoded (now : ℕ) (decode : List ℕ → Option ℕ)
    (key : Key) (st : CacheState) (e : Img)
    (hf : findEntry st.cache key = some e) (hbmp : e.bmp = none) :
    (e.bytes = [] →
      (GetOrFetchBitmap now decode key st).1 = (none, false) ∧
      (GetOrFetchBitmap now decode key st).2.cache =
        setEntry st.cache key { e with lastUsed := now } ∧
      (GetOrFetchBitmap now decode key st).2.jobs = st.jobs) ∧
    (e.bytes ≠ [] →
      (GetOrFetchBitmap now decode key st).1 =
        (decode e.bytes, (decode e.bytes).isSome) ∧
      (GetOrFetchBitmap now decode key st).2.cache =
        setEntry st.cache key
          { bytes := [], bmp := decode e.bytes, lastUsed := now } ∧
      (GetOrFetchBitmap now decode key st).2.jobs = st.jobs) := by
  constructor
  · intro hb
    simp only [GetOrFetchBitmap, hf]
    rw [if_neg (by simp [hb])]
    simp [hbmp]
  · intro hb
    simp only [GetOrFetchBitmap, hf]
    rw [if_pos ⟨by simp [hbmp], by simp [hb]⟩]
    simp

theorem getOrFetch_undecoded_witness :
    (findEntry [(0, { bytes := [7], bmp := none, lastUsed := 0 })] 0
        = some { bytes := [7], bmp := none, lastUsed := 0 } ∧
      ({ bytes := [7], bmp := none, lastUsed := 0 } : Img).bmp = none ∧
      ({ bytes := [7], bmp := none, lastUsed := 0 } : Img).bytes ≠ []) ∧
    (GetOrFetchBitmap 1 (fun _ => some 42) 0
      { cache := [(0, { bytes := [7], bmp := none, lastUsed := 0 })],
        jobs := [], notifies := 0 }).1 = (some 42, true) := by
  have h := (getOrFetch_undecoded 1 (fun _ => some 42) 0
      { cache := [(0, { bytes := [7], bmp := none, lastUsed := 0 })],
        jobs := [], notifies := 0 }
      { bytes := [7], bmp := none, lastUsed := 0 } (by decide) rfl).2
      (by decide)
  exact ⟨⟨by decide, rfl, by decide⟩, h.1.trans rfl⟩

/-! ### Claim C7: decode failure -/

/-- Counterexample to claim C7 as stated: after a failed decode the entry is
byte-for-byte a fresh Pending placeholder — the code keeps no Failed state
distinguishable from Pending. -/
theorem decode_failure_counterexample :
    (GetOrFetchBitmap 5 (fun _ => none) 0
      { cache := [(0, { bytes := [7], bmp := none, lastUsed := 0 })],
        jobs := [], notifies := 0 }).2.cache = [(0, pendingPlaceholder 5)] ∧
    entryState (pendingPlaceholder 5) = EntryState.pending := by decide

/-- Claim C7 (amended): when decode fails the entry keeps existing but
degenerates to the same representation as a Pending placeholder (bytes
consumed, no bitmap) — there is no distinguishable Failed state; the call
reports not-ready, enqueues no fetch job and leaves the key set unchanged
(the failure does not evict the entry); and any later call for a key whose
entry has this shape again reports not-ready, enqueues nothing and leaves
the entry in the same shape, so such an entry is never re-decoded, never
re-fetched and never reported ready. -/
theorem decode_failure_terminal (now : ℕ) (decode : List ℕ → Option ℕ)
    (key : Key) (st : CacheState) (e : Img)
    (hf : findEntry st.cache key = some e) (hbmp : e.bmp = none)
    (hbytes : e.bytes ≠ []) (hfail : decode e.bytes = none) :
    (GetOrFetchBitmap now decode key st).1 = (none, false) ∧
    (GetOrFetchBitmap now decode key st).2.cache =
      setEntry st.cache key (pendingPlaceholder now) ∧
    (GetOrFetchBitmap now decode key st).2.jobs = st.jobs ∧
    (GetOrFetchBitmap now decode key st).2.cache.map Prod.fst
      = st.cache.map Prod.fst ∧
    (∀ (n : ℕ) (d : List ℕ → Option ℕ) (st' : CacheState) (t : ℕ),
      findEntry st'.cache key = some (pendingPlaceholder t) →
      (GetOrFetchBitmap n d key st').1 = (none, false) ∧
      (GetOrFetchBitmap n d key st').2.cache =
        setEntry st'.cache key (pendingPlaceholder n) ∧
      (GetOrFetchBitmap n d key st').2.jobs = st'.jobs) := by
  have hcache : (GetOrFetchBitmap now decode key st).2.cache =
      setEntry st.cache key (pendingPlaceholder now) := by
    simp only [GetOrFetchBitmap, hf]
    rw [if_pos ⟨by simp [hbmp], by simp [hbytes]⟩]
    simp [pendingPlaceholder, hfail]
  refine ⟨?_, hcache, ?_, ?_, ?_⟩
  · simp only [GetOrFetchBitmap, hf]
    rw [if_pos ⟨by simp [hbmp], by simp [hbytes]⟩]
    simp [hfail]
  · simp only [GetOrFetchBitmap, hf]
  · rw [hcache, keys_setEntry]
  · intro n d st' t hf'
    simp only [GetOrFetchBitmap, hf']
    rw [if_neg (by simp [pendingPlaceholder])]
    refine ⟨by simp [pendingPlaceholder], ?_, by trivial⟩
    simp [pendingPlaceholder]

theorem decode_failure_terminal_witness :
    (findEntry [(0, { bytes := [7], bmp := none, lastUsed := 0 })] 0
        = some { bytes := [7], bmp := none, lastUsed := 0 } ∧
      ({ bytes := [7], bmp := none, lastUsed := 0 } : Img).bmp = none ∧
      ({ bytes := [7], bmp := none, lastUsed := 0 } : Img).bytes ≠ [] ∧
      (fun _ : List ℕ => (none : Option ℕ)) [7] = none) ∧
    (GetOrFetchBitmap 5 (fun _ => none) 0
      { cache := [(0, { bytes := [7], bmp := none, lastUsed := 0 })],
        jobs := [], notifies := 0 }).1 = (none, false) :=
  ⟨⟨by decide, rfl, by decide, rfl⟩,
   (decode_failure_terminal 5 (fun _ => none) 0
      { cache := [(0, { bytes := [7], bmp := none, lastUsed := 0 })],
        jobs := [], notifies := 0 }
      { bytes := [7], bmp := none, lastUsed := 0 }
      (by decide) rfl (by decide) rfl).1⟩

/-! ### Claim C8: fetch failure removes the entry; stale success discarded -/

/-- Claim C8: when a fetch job fails and the entry still exists at commit
time, the entry is removed (and no ready notification is posted), so the
next `GetOrFetchBitmap` call for that key is a fresh miss that returns
not-ready, inserts a new placeholder and enqueues a new fetch job; when a
fetch succeeds but the entry was evicted meanwhile, the fetched bytes are
discarded and the state is left unchanged. -/
theorem fetch_failure_fresh_miss (key : Key) (st : CacheState)
    (buf : List ℕ) (hmem : key ∈ st.cache.map Prod.fst)
    (hlen : st.cache.length ≤ kCacheLimit) :
    key ∉ (fetchCommit false buf key st).cache.map Prod.fst ∧
    (fetchCommit false buf key st).notifies = st.notifies ∧
    (fetchCommit false buf key st).jobs = st.jobs ∧
    (∀ (n : ℕ) (decode : List ℕ → Option ℕ),
      (GetOrFetchBitmap n decode key (fetchCommit false buf key st)).1
        = (none, false) ∧
      (GetOrFetchBitmap n decode key (fetchCommit false buf key st)).2.jobs
        = st.jobs ++ [key] ∧
      key ∈ (GetOrFetchBitmap n decode key
        (fetchCommit false buf key st)).2.cache.map Prod.fst) ∧
    (∀ (st' : CacheState) (buf' : List ℕ), key ∉ st'.cache.map Prod.fst →
      fetchCommit true buf' key st' = st') := by
  obtain ⟨e, he⟩ : ∃ e, findEntry st.cache key = some e := by
    cases hfe : findEntry st.cache key with
    | none =>
      rw [findEntry_eq_none_iff] at hfe
      exact absurd hmem hfe
    | some e => exact ⟨e, rfl⟩
  have hstc : fetchCommit false buf key st
      = { st with cache := eraseEntry st.cache key } := by
    simp [fetchCommit, he]
  have hee : (key, e) ∈ st.cache := findEntry_mem he
  have hlt : (eraseEntry st.cache key).length < st.cache.length :=
    List.length_filter_lt_length_iff_exists.mpr ⟨(key, e), hee, by simp⟩
  have hfe2 : findEntry (eraseEntry st.cache key) key = none :=
    findEntry_eraseEntry st.cache key
  have hlen1 : (eraseEntry st.cache key
      ++ [(key, pendingPlaceholder 0)]).length ≤ kCacheLimit := by
    rw [List.length_append]
    simp only [List.length_singleton]
    omega
  refine ⟨?_, ?_, ?_, ?_, ?_⟩
  · rw [hstc]
    exact (findEntry_eq_none_iff _ _).mp hfe2
  · rw [hstc]
  · rw [hstc]
  · intro n decode
    have hlen2 : (eraseEntry st.cache key
        ++ [(key, pendingPlaceholder n)]).length ≤ kCacheLimit := by
      rw [List.length_append]
      simp only [List.length_singleton]
      omega
    refine ⟨?_, ?_, ?_⟩
    · rw [hstc]
      simp only [GetOrFetchBitmap, hfe2]
    · rw [hstc]
      simp only [GetOrFetchBitmap, hfe2, purge_of_le hlen2]
    · rw [hstc]
      simp only [GetOrFetchBitmap, hfe2, purge_of_le hlen2]
      simp
  · intro st' buf' h
    have hfe3 : findEntry st'.cache key = none :=
      (findEntry_eq_none_iff _ _).mpr h
    simp [fetchCommit, hfe3]

theorem fetch_failure_fresh_miss_witness :
    ((0 : Key) ∈
        ({ cache := [(0, { bytes := [], bmp := none, lastUsed := 0 })],
           jobs := [], notifies := 0 } : CacheState).cache.map Prod.fst ∧
      ({ cache := [(0, { bytes := [], bmp := none, lastUsed := 0 })],
         jobs := [], notifies := 0 } : CacheState).cache.length
        ≤ kCacheLimit) ∧
    (0 : Key) ∉ (fetchCommit false [9] 0
      { cache := [(0, { bytes := [], bmp := none, lastUsed := 0 })],
        jobs := [], notifies := 0 }).cache.map Prod.fst :=
  ⟨⟨by decide, by decide⟩,
   (fetch_failure_fresh_miss 0
      { cache := [(0, { bytes := [], bmp := none, lastUsed := 0 })],
        jobs := [], notifies := 0 } [9] (by decide) (by decide)).1⟩

/-! ### Claim C10: HTTP success requires status 200 and a nonempty body -/

/-- Claim C10: `HttpGet` reports success iff the status is exactly 200 and
the accumulated body is nonempty; a 200 response with an empty body is a
fetch failure, so the fetch job leaves no entry for the key in the cache and
posts no ready notification. -/
theorem httpGet_empty_body_is_failure :
    (∀ (status : ℕ) (chunks : List (List ℕ)),
        (HttpGet status chunks).1 = true ↔ status = 200 ∧ chunks.flatten ≠ []) ∧
    (∀ (chunks : List (List ℕ)) (key : Key) (st : CacheState),
        chunks.flatten = [] →
        findEntry (fetchJob 200 chunks key st).cache key = none ∧
        (fetchJob 200 chunks key st).notifies = st.notifies ∧
        (fetchJob 200 chunks key st).jobs = st.jobs) := by
  constructor
  · intro status chunks
    by_cases h : status = 200 <;> simp [HttpGet, h]
  · intro chunks key st h
    have hok : (HttpGet 200 chunks).1 = false := by simp [HttpGet, h]
    unfold fetchJob
    rw [hok]
    unfold fetchCommit
    cases hf : findEntry st.cache key with
    | none => simpa using hf
    | some e => simpa using findEntry_eraseEntry st.cache key

theorem httpGet_empty_body_is_failure_witness :
    ([[], []] : List (List ℕ)).flatten = [] ∧
    findEntry
      (fetchJob 200 [[], []] 0
        { cache := [(0, { bytes := [], bmp := none, lastUsed := 0 })],
          jobs := [], notifies := 0 }).cache 0 = none :=
  ⟨rfl, (httpGet_empty_body_is_failure.2 [[], []] 0
    { cache := [(0, { bytes := [], bmp := none, lastUsed := 0 })],
      jobs := [], notifies := 0 } rfl).1⟩

end Ame
